import Mathlib

/-!
Shallow embedding of the incremental dimension/fact loader with sales-return
reconciliation (`src/db_mssql.py`).  Quantities, amounts and unit prices are
modelled as exact rationals (the Python code uses floats; the tolerance-based
comparisons translate verbatim).  Nullable columns (`NaN`/`NaT`) are modelled
as `Option`; dates as integers (only their ordering matters).  Database
side effects are modelled as explicit state: the warehouse fact table is a
list of rows, and driver-level insert failures are supplied by an oracle.
-/

namespace ETL

/-! ## A comparison sort

Pandas `sort_values` sorts by one column and leaves the order of ties
unspecified (the spec flags tie order as incidental).  The model uses a plain
insertion sort on a boolean comparator; the sortedness and permutation lemmas
below are everything the development relies on. -/

/-- Insert `a` in front of the first element not below it. -/
def insertLe (le : α → α → Bool) (a : α) : List α → List α
  | [] => [a]
  | b :: bs => if le a b then a :: b :: bs else b :: insertLe le a bs

/-- Insertion sort by a boolean comparator. -/
def sortLe (le : α → α → Bool) : List α → List α
  | [] => []
  | a :: as => insertLe le a (sortLe le as)

/-! ## Return reconciler (`_resolve_credit_base_documents`) -/

/-- Tolerance `price_tol = 1e-4` from `_resolve_credit_base_documents`. -/
def price_tol : ℚ := 1 / 10000

/-- Tolerance `qty_tol = 1e-6` from `_resolve_credit_base_documents`. -/
def qty_tol : ℚ := 1 / 1000000

/-- One invoice line of `df_sales` (query over OINV/INV1). -/
structure InvLine where
  docDate : Option Int
  cardCode : String
  slpCode : Option Int
  docNum : Int
  docEntry : Int
  lineNum : Int
  itemCode : String
  quantity : ℚ
  lineTotal : ℚ
  docCur : String
deriving DecidableEq

/-- One credit-note line of `df_credits` (query over ORIN/RIN1, quantity and
line total already sign-flipped by the SQL). -/
structure CreditLine where
  docDate : Option Int
  cardCode : String
  slpCode : Option Int
  docNum : Int
  docEntry : Int
  lineNum : Int
  itemCode : String
  quantity : ℚ
  lineTotal : ℚ
  docCur : String
deriving DecidableEq

/-- Working invoice row of `work_invoices`: the positional label (`cand_idx`),
the source line, the precomputed `UnitPrice` (`NaN` when the quantity is zero)
and the mutable `remaining_qty` ledger. -/
structure WorkInv where
  idx : Nat
  inv : InvLine
  unitPrice : Option ℚ
  remaining : ℚ
deriving DecidableEq

/-- `UnitPrice = LineTotal / Quantity` with `0` quantity giving `NaN`. -/
def invUnitPrice (v : InvLine) : Option ℚ :=
  if v.quantity = 0 then none else some (v.lineTotal / v.quantity)

/-- Credit `UnitPrice = abs (LineTotal / Quantity)` with `0` quantity giving `NaN`. -/
def creditUnitPrice (c : CreditLine) : Option ℚ :=
  if c.quantity = 0 then none else some |c.lineTotal / c.quantity|

/-- The initial working ledger: positional index, unit price, and
`remaining_qty` initialised to the invoice quantity. -/
def initWorkFrom (k : Nat) : List InvLine → List WorkInv
  | [] => []
  | v :: vs => ⟨k, v, invUnitPrice v, v.quantity⟩ :: initWorkFrom (k + 1) vs

/-- `work_invoices` at the start of the matching loop. -/
def initWork (invs : List InvLine) : List WorkInv := initWorkFrom 0 invs

/-- Candidate filter of the matching loop: same `CardCode`, `ItemCode`,
`DocCur`, positive remaining quantity; same `SlpCode` when the credit has one;
unit price within `max(price_tol, abs(unit_price) * price_tol)` when the
credit's unit price is not `NaN` (a candidate with `NaN` unit price is
excluded by the `notna` conjunct). -/
def candFilter (ws : List WorkInv) (c : CreditLine) : List WorkInv :=
  let base := ws.filter fun w =>
    decide (w.inv.cardCode = c.cardCode ∧ w.inv.itemCode = c.itemCode ∧
            w.inv.docCur = c.docCur ∧ qty_tol < w.remaining)
  let base := match c.slpCode with
    | none => base
    | some s => base.filter fun w => decide (w.inv.slpCode = some s)
  match creditUnitPrice c with
  | none => base
  | some u =>
      let tol := max price_tol (|u| * price_tol)
      base.filter fun w =>
        match w.unitPrice with
        | some p => decide (|p - u| ≤ tol)
        | none => false

/-- Pandas comparison `DocDate <= credit_date`: `NaT` compares `False`. -/
def dateLeB : Option Int → Int → Bool
  | some x, d => decide (x ≤ d)
  | none, _ => false

/-- Ascending order on nullable dates (`NaT` sorts last, pandas default). -/
def dateAscLe : Option Int → Option Int → Bool
  | some x, some y => decide (x ≤ y)
  | some _, none => true
  | none, some _ => false
  | none, none => true

/-- Descending order on nullable dates (`NaT` sorts last, pandas default). -/
def dateDescLe : Option Int → Option Int → Bool
  | some x, some y => decide (y ≤ x)
  | some _, none => true
  | none, some _ => false
  | none, none => true

/-- Candidate ordering step: with a known credit date, candidates dated on or
before it are preferred and sorted by descending date; otherwise (or when the
credit date is `NaT`) all candidates are sorted by ascending date. -/
def orderCandidates (c : CreditLine) (cands : List WorkInv) : List WorkInv :=
  match c.docDate with
  | some d =>
      let prior := cands.filter fun w => dateLeB w.inv.docDate d
      if prior.isEmpty then
        sortLe (fun a b => dateAscLe a.inv.docDate b.inv.docDate) cands
      else
        sortLe (fun a b => dateDescLe a.inv.docDate b.inv.docDate) prior
  | none => sortLe (fun a b => dateAscLe a.inv.docDate b.inv.docDate) cands

/-- Outcome of the matching loop for one credit line. -/
inductive MatchOutcome where
  | skipped
  | noCandidates
  | failed
  | matched (idx : Nat) (docEntry lineNum docNum : Int) (docDate : Option Int)
deriving DecidableEq

/-- A credit line together with its matching outcome (the `BaseDocEntry`,
`BaseLine`, `BaseDocNum`, `BaseDocDate` columns written by the loop). -/
structure CreditResult where
  credit : CreditLine
  outcome : MatchOutcome
deriving DecidableEq

/-- Greedy acceptance test: the code skips a candidate when
`available_qty + qty_tol < qty_needed`, so it accepts the first candidate with
`qty_needed ≤ remaining + qty_tol`. -/
def fitsB (qtyNeeded : ℚ) (w : WorkInv) : Bool :=
  decide (qtyNeeded ≤ w.remaining + qty_tol)

/-- Body of the matching loop for one credit row: skip near-zero lines, build
and order the candidate set, link to the first candidate that fits, and
decrement that candidate's remaining quantity (clamped at zero).  The update
is by the positional label `cand_idx`, whose values are unique in
`work_invoices`. -/
def processCredit (ws : List WorkInv) (c : CreditLine) : List WorkInv × CreditResult :=
  let qtyNeeded := |c.quantity|
  let amtNeeded := |c.lineTotal|
  if qtyNeeded ≤ qty_tol ∨ amtNeeded ≤ price_tol then
    (ws, ⟨c, .skipped⟩)
  else
    let cands := candFilter ws c
    if cands.isEmpty then
      (ws, ⟨c, .noCandidates⟩)
    else
      match (orderCandidates c cands).find? (fitsB qtyNeeded) with
      | none => (ws, ⟨c, .failed⟩)
      | some w =>
          (ws.map fun v =>
            if v.idx = w.idx then
              { v with remaining := max 0 (v.remaining - qtyNeeded) }
            else v,
           ⟨c, .matched w.idx w.inv.docEntry w.inv.lineNum w.inv.docNum w.inv.docDate⟩)

/-- The `for idx, credit_row in work_credits.iterrows()` loop, threading the
mutable invoice ledger through the credits in order. -/
def creditPassAux (ws : List WorkInv) : List CreditLine → List WorkInv × List CreditResult
  | [] => (ws, [])
  | c :: cs =>
      let step := processCredit ws c
      let rest := creditPassAux step.1 cs
      (rest.1, step.2 :: rest.2)

/-- The whole matching pass over all credit lines. -/
def creditPass (invs : List InvLine) (credits : List CreditLine) :
    List WorkInv × List CreditResult :=
  creditPassAux (initWork invs) credits

/-- Whether the loop produced a base-document link (`BaseDocEntry` not `NaN`). -/
def CreditResult.isMatched (r : CreditResult) : Bool :=
  match r.outcome with
  | .matched _ _ _ _ _ => true
  | _ => false

/-- The reported count `work_credits['BaseDocEntry'].isna().sum()`. -/
def unmatchedCount (rs : List CreditResult) : Nat :=
  (rs.filter fun r => !r.isMatched).length

/-- The function `_resolve_credit_base_documents`: on an empty side it returns
the credits untouched (no pass, no reported count); otherwise it runs the
matching pass. -/
def resolve_credit_base_documents (invs : List InvLine) (credits : List CreditLine) :
    Option (List WorkInv × List CreditResult) :=
  if credits.isEmpty ∨ invs.isEmpty then none
  else some (creditPass invs credits)

/-- The resolved date of a reconciled line, from `extract_source_data`
(lines 423-427): rows with a base document and a non-null `BaseDocDate` take
the base document's date, all other rows keep their own `DocDate`. -/
def resolvedDate (r : CreditResult) : Option Int :=
  match r.outcome with
  | .matched _ _ _ _ (some d) => some d
  | _ => r.credit.docDate

/-! ## Net grouping of sales and returns (`extract_source_data`, lines 438-494) -/

/-- Zero threshold for net quantities (`1e-9`). -/
def qty_zero_eps : ℚ := 1 / 1000000000

/-- Zero threshold for net amounts (`1e-6`). -/
def amt_zero_eps : ℚ := 1 / 1000000

/-- The `net_group_keys` columns: `resolved_doc_entry`, `resolved_line_num`,
`ItemCode`, `CardCode`, `SlpCode`, `DocCur` (grouping is `dropna=False`, so
null keys form groups like any other value). -/
structure NetKey where
  resolvedDocEntry : Option Int
  resolvedLineNum : Option Int
  itemCode : String
  cardCode : String
  slpCode : Option Int
  docCur : String
deriving DecidableEq

/-- A row of `df_fact` entering the consolidation `groupby`. -/
structure NetRow where
  key : NetKey
  docDate : Option Int
  quantity : ℚ
  lineTotal : ℚ
  docNum : Option Int
deriving DecidableEq

/-- The distinct group keys, in order of first appearance (pandas sorts group
keys; the netting facts proved below do not depend on group order). -/
def keysOf : List NetRow → List NetKey
  | [] => []
  | r :: rs => r.key :: (keysOf rs).filter fun k => decide (k ≠ r.key)

/-- Pandas `min` on a date column skips `NaT`; all-`NaT` yields `NaT`. -/
def optMin : Option Int → Option Int → Option Int
  | some x, some y => some (min x y)
  | some x, none => some x
  | none, o => o

/-- Earliest non-null date of a group. -/
def dateMin (l : List (Option Int)) : Option Int := l.foldr optMin none

/-- Aggregation of one group: `DocDate: min`, `Quantity: sum`,
`LineTotal: sum`, `resolved_doc_num: first`. -/
def groupAgg (rows : List NetRow) (k : NetKey) : NetRow :=
  let grp := rows.filter fun r => decide (r.key = k)
  { key := k
    docDate := dateMin (grp.map (·.docDate))
    quantity := (grp.map (·.quantity)).sum
    lineTotal := (grp.map (·.lineTotal)).sum
    docNum := match grp.head? with | some r => r.docNum | none => none }

/-- The consolidation: group by `net_group_keys`, aggregate, then drop every
group whose net quantity and net amount are both below the zero thresholds. -/
def netGroups (rows : List NetRow) : List NetRow :=
  (keysOf rows).filterMap fun k =>
    let g := groupAgg rows k
    if |g.quantity| < qty_zero_eps ∧ |g.lineTotal| < amt_zero_eps then none
    else some g

/-! ## Dimension upsert (`process_and_load_dim`) -/

/-- Strip leading and trailing whitespace from a character list. -/
def trimChars (l : List Char) : List Char :=
  ((l.dropWhile (·.isWhitespace)).reverse.dropWhile (·.isWhitespace)).reverse

/-- Key normalisation used for comparison only: `str.strip().str.upper()`
(the keys at play are ASCII, so `Char.toUpper` models Python `upper`). -/
def normalizeKey (s : String) : String := ⟨(trimChars s.data).map Char.toUpper⟩

/-- A dimension row: warehouse-assigned surrogate key plus the natural key
stored with its original casing. -/
structure DimRow where
  sk : Int
  key : String
deriving DecidableEq

/-- A dimension table plus the IDENTITY counter the warehouse uses to assign
surrogate keys to newly inserted rows. -/
structure DimTable where
  rows : List DimRow
  nextSk : Int
deriving DecidableEq

/-- `drop_duplicates(subset=[key_col])`: keep the first occurrence of each raw
(unnormalised) key. -/
def dedupFirst : List String → List String
  | [] => []
  | k :: ks => k :: (dedupFirst ks).filter fun x => decide (x ≠ k)

/-- Rows inserted for the new keys, surrogate keys assigned by the IDENTITY
counter in insertion order. -/
def insertRows (n : Int) : List String → List DimRow
  | [] => []
  | k :: ks => ⟨n, k⟩ :: insertRows (n + 1) ks

/-- `process_and_load_dim` for a string-keyed dimension: drop null source
keys, dedupe by raw key, read the existing keys, keep only source keys whose
normalised form is not already present (comparison is trim + case-fold on
both sides), insert only those, and return the full lookup read back from the
warehouse. -/
def process_and_load_dim (source : List (Option String)) (t : DimTable) :
    DimTable × List DimRow :=
  let keys := dedupFirst (source.filterMap id)
  let existingNorm := t.rows.map fun r => normalizeKey r.key
  let newKeys := keys.filter fun k => decide (normalizeKey k ∉ existingNorm)
  let t' : DimTable := ⟨t.rows ++ insertRows t.nextSk newKeys, t.nextSk + newKeys.length⟩
  (t', t'.rows)

/-! ## Unknown-warehouse sentinel (`ensure_unknown_warehouse`) and warehouse
key resolution (`load_fact_sales`, lines 784-796) -/

/-- A row of `dw.DIM_WAREHOUSE`. -/
structure WhsRow where
  sk : Int
  whsCode : String
  name : String
deriving DecidableEq

/-- `ensure_unknown_warehouse`: insert the reserved row `(0, 'UNK')` only when
no row with `whsCode = 'UNK'` exists (the `IF NOT EXISTS` guard). -/
def ensure_unknown_warehouse (t : List WhsRow) : List WhsRow :=
  if t.any fun r => r.whsCode == "UNK" then t
  else t ++ [⟨0, "UNK", "Bodega Desconocida"⟩]

/-- Number of `'UNK'` rows in the warehouse dimension. -/
def countUNK (t : List WhsRow) : Nat :=
  (t.filter fun r => r.whsCode == "UNK").length

/-- Warehouse surrogate key of one fact row.  The sales feed selects no
`WhsCode` column, so its rows carry no warehouse code (`none`) and take
`idWarehouse = 0`; a row with a code takes the merged key, and a merge miss
becomes `NaN` and is filled with `0` (`fillna(0)`). -/
def assignWarehouseSK (whs : Option String) (lookup : List WhsRow) : Int :=
  match whs with
  | none => 0
  | some c =>
      match lookup.find? (fun r => r.whsCode == c) with
      | some r => r.sk
      | none => 0

/-! ## Fact validation and load (`load_fact_sales`) -/

/-- The provenance tag of this feed. -/
def SOURCE_SYSTEM_DB : String := "DB_SALES"

/-- A row of `df_fact_final` (also the shape of a `dw.FACT_SALES` row). -/
structure FactRow where
  idDate : Option Int
  idCustomer : Option Int
  idProduct : Option Int
  idSalesperson : Option Int
  idWarehouse : Option Int
  idCurrency : Option Int
  quantity : Option ℚ
  total_usd : Option ℚ
  total_crc : Option ℚ
  source_system : String
  source_doc_id : Option String
deriving DecidableEq

/-- The pre-insert cleanup
`DELETE FROM dw.FACT_SALES WHERE source_system = ?`: rows under any other
provenance tag survive. -/
def deleteByTag (tag : String) (tbl : List FactRow) : List FactRow :=
  tbl.filter fun r => decide (r.source_system ≠ tag)

/-- `SQL_INT_MAX = 2_147_483_647`. -/
def SQL_INT_MAX : Int := 2147483647

/-- `DECIMAL_38_10_MAX = 10**28 - 1`. -/
def DECIMAL_38_10_MAX : ℚ := 10 ^ 28 - 1

/-- Column identifiers of the fact batch used by the validation. -/
inductive FactCol where
  | idDate | idCustomer | idProduct | idSalesperson | idWarehouse | idCurrency
  | quantity | total_usd | total_crc
deriving DecidableEq

/-- Integer-typed column access. -/
def intColVal (r : FactRow) : FactCol → Option Int
  | .idDate => r.idDate
  | .idCustomer => r.idCustomer
  | .idProduct => r.idProduct
  | .idSalesperson => r.idSalesperson
  | .idWarehouse => r.idWarehouse
  | .idCurrency => r.idCurrency
  | _ => none

/-- Decimal-typed column access. -/
def decColVal (r : FactRow) : FactCol → Option ℚ
  | .quantity => r.quantity
  | .total_usd => r.total_usd
  | .total_crc => r.total_crc
  | _ => none

/-- `required_int_cols = ['idDate', 'idCustomer', 'idProduct']`. -/
def required_int_cols : List FactCol := [.idDate, .idCustomer, .idProduct]

/-- `int_cols` checked for integer overflow. -/
def int_cols : List FactCol :=
  [.idDate, .idCustomer, .idProduct, .idSalesperson, .idWarehouse, .idCurrency]

/-- `dec_cols` checked for decimal overflow. -/
def dec_cols : List FactCol := [.quantity, .total_usd, .total_crc]

/-- Rounding to scale 10 (`.round(10)`, and `Decimal.quantize` at insert).
Tie-breaking differs between Python (half-even) and `round` here (half-up);
no property below depends on behaviour at exact half-ulp ties. -/
def roundScale10 (q : ℚ) : ℚ := (round (q * 10 ^ 10) : ℤ) / 10 ^ 10

/-- The deterministic repair validation applies: decimal columns rounded to
the destination scale.  This mutation persists into the inserted rows. -/
def roundDecRow (r : FactRow) : FactRow :=
  { r with
    quantity := r.quantity.map roundScale10
    total_usd := r.total_usd.map roundScale10
    total_crc := r.total_crc.map roundScale10 }

/-- One validation violation (`issues` is set once per failing check; all
checks run before the batch is rejected). -/
inductive Violation where
  | nullRequired (c : FactCol)
  | intOverflow (c : FactCol)
  | decOverflow (c : FactCol)
deriving DecidableEq

/-- Integer overflow test `abs(v) > SQL_INT_MAX` (nulls are skipped by the
`notna` mask). -/
def intOverflowB (r : FactRow) (c : FactCol) : Bool :=
  match intColVal r c with
  | some v => decide (SQL_INT_MAX < |v|)
  | none => false

/-- Decimal overflow test `abs(v) > DECIMAL_38_10_MAX` after rounding. -/
def decOverflowB (r : FactRow) (c : FactCol) : Bool :=
  match decColVal r c with
  | some v => decide (DECIMAL_38_10_MAX < |v|)
  | none => false

/-- The pre-insert validation: null checks on the required key columns and on
`quantity`, integer-overflow checks on all surrogate-key columns, and
decimal-overflow checks on the rounded measure columns.  Every failing check
contributes a violation; the checks never short-circuit. -/
def validateFacts (rows : List FactRow) : List Violation :=
  let rounded := rows.map roundDecRow
  (required_int_cols.filterMap fun c =>
    if rows.any (fun r => (intColVal r c).isNone) then some (.nullRequired c) else none)
  ++ (if rows.any (fun r => r.quantity.isNone) then [Violation.nullRequired .quantity] else [])
  ++ (int_cols.filterMap fun c =>
    if rows.any (fun r => intOverflowB r c) then some (.intOverflow c) else none)
  ++ (dec_cols.filterMap fun c =>
    if rounded.any (fun r => decOverflowB r c) then some (.decOverflow c) else none)

/-- Driver-level outcomes supplied to the load: whether the bulk
`executemany` raises `pyodbc.Error`, and which row indices fail during the
per-row fallback (a row's commit failure is folded into its failure). -/
structure InsertOracle where
  bulkFails : Bool
  rowFails : Nat → Bool

/-- An error escaping `load_fact_sales` to its caller `run_etl`. -/
inductive LoadError where
  | validationFailed (viols : List Violation)
deriving DecidableEq

/-- Observable outcome of one `load_fact_sales` call. -/
structure LoadOutcome where
  finalTable : List FactRow
  raisedToCaller : Option LoadError
  printedBulkSuccess : Bool
  aggregateRaised : Option Nat
  collectedFailures : List Nat
  rowsAttempted : Nat

/-- The load protocol of `load_fact_sales` after key resolution, with the
pre-insert cleanup succeeding.  Validation failure raises `ValueError` before
the insert `try` block, so it escapes to the caller with nothing inserted.
Otherwise the bulk insert either commits the whole batch, or — on
`pyodbc.Error` — is rolled back and every row is retried individually, each
success committed and each failure collected; the aggregate `RuntimeError`
raised after the loop is caught by the function's own blanket
`except Exception` handler (lines 1092-1094), so it never reaches the
caller. -/
def load_fact_sales (table batch : List FactRow) (oracle : InsertOracle) :
    LoadOutcome :=
  let cleaned := deleteByTag SOURCE_SYSTEM_DB table
  let viols := validateFacts batch
  let prepared := batch.map roundDecRow
  if viols.isEmpty then
    if oracle.bulkFails then
      let failures := (List.range prepared.length).filter oracle.rowFails
      { finalTable := cleaned ++ ((prepared.enum.filter fun p => !oracle.rowFails p.1).map Prod.snd)
        raisedToCaller := none
        printedBulkSuccess := false
        aggregateRaised := some failures.length
        collectedFailures := failures
        rowsAttempted := prepared.length }
    else
      { finalTable := cleaned ++ prepared
        raisedToCaller := none
        printedBulkSuccess := true
        aggregateRaised := none
        collectedFailures := []
        rowsAttempted := 0 }
  else
    { finalTable := cleaned
      raisedToCaller := some (.validationFailed viols)
      printedBulkSuccess := false
      aggregateRaised := none
      collectedFailures := []
      rowsAttempted := 0 }

/-- `run_etl` prints `✅ ETL completado con éxito` exactly when no stage
raises, so the run reports success iff the load let no error escape. -/
def runReportsSuccess (o : LoadOutcome) : Bool := o.raisedToCaller.isNone

/-! ## Ledger accounting used to state the reconciliation invariants -/

/-- Sum of the remaining quantities of the ledger entries labelled `i`
(the row `work_invoices.at[i]`; labels are unique along the pass). -/
def remOf (ws : List WorkInv) (i : Nat) : ℚ :=
  ((ws.filter fun w => decide (w.idx = i)).map (·.remaining)).sum

/-- The candidate index a credit line was matched to, if any. -/
def matchedIdx : MatchOutcome → Option Nat
  | .matched i _ _ _ _ => some i
  | _ => none

/-- Total return quantity consumed from candidate `i` by the matched credits. -/
def matchedQtyAt (rs : List CreditResult) (i : Nat) : ℚ :=
  ((rs.filter fun r => decide (matchedIdx r.outcome = some i)).map
    (fun r => |r.credit.quantity|)).sum

/-- Number of credit lines matched to candidate `i`. -/
def matchedCountAt (rs : List CreditResult) (i : Nat) : Nat :=
  (rs.filter fun r => decide (matchedIdx r.outcome = some i)).length

/-- Sample credit line used for concrete instantiations. -/
def sampleCredit : CreditLine := ⟨some 10, "C1", none, 1, 1, 0, "I1", 1, 10, "CRC"⟩

/-- Sample candidate set: one candidate dated before the sample credit, one
dated after it. -/
def sampleCands : List WorkInv :=
  [⟨0, ⟨some 5, "C1", none, 1, 1, 0, "I1", 1, 10, "CRC"⟩, some 10, 1⟩,
   ⟨1, ⟨some 20, "C1", none, 2, 2, 0, "I1", 1, 10, "CRC"⟩, some 10, 1⟩]


/-- Sample invoice line with quantity 1 at unit price 10. -/
def ovInv : InvLine := ⟨some 100, "C1", none, 1, 11, 0, "I1", 1, 10, "CRC"⟩

/-- Sample credit line returning quantity `1 + 5e-7` (within `qty_tol` of the
sample invoice's quantity) at the same unit price. -/
def ovCredit : CreditLine :=
  ⟨some 200, "C1", none, 2, 21, 0, "I1", -(2000001 / 2000000), -(2000001 / 200000), "CRC"⟩

/-- Sample invoice whose quantity is `5e-7` below the needed quantity of
`cexCredit` (still within `qty_tol`), dated closer to the credit. -/
def cexInvLow : InvLine :=
  ⟨some 150, "C1", none, 3, 31, 0, "I1", 1999999 / 2000000, 10 * (1999999 / 2000000), "CRC"⟩

/-- Sample invoice whose quantity covers `cexCredit` exactly, dated earlier. -/
def cexInvFull : InvLine := ⟨some 100, "C1", none, 4, 41, 0, "I1", 1, 10, "CRC"⟩

/-- Sample credit line needing quantity 1 at unit price 10. -/
def cexCredit : CreditLine := ⟨some 200, "C1", none, 5, 51, 0, "I1", -1, -10, "CRC"⟩

/-- Sample no-op credit line: zero quantity and amount, so step 1 of the
matching loop skips it and its base document stays unresolved. -/
def zeroCredit : CreditLine := ⟨some 200, "C1", none, 2, 21, 0, "I1", 0, 0, "CRC"⟩

/-- Sample net-group key. -/
def netKey0 : NetKey := ⟨some 11, some 0, "I1", "C1", none, "CRC"⟩

/-- Sample sale row: quantity 10, amount 100, dated 2024-01-05. -/
def netSale : NetRow := ⟨netKey0, some 20240105, 10, 100, some 1⟩

/-- Sample fully offsetting return: quantity -10, amount -100, dated later. -/
def netRetFull : NetRow := ⟨netKey0, some 20240110, -10, -100, some 1⟩

/-- Sample partial return: quantity -4, amount -40, dated later. -/
def netRetPart : NetRow := ⟨netKey0, some 20240110, -4, -40, some 1⟩

/-- Sample dimension table holding one row with natural key `"Ab"`. -/
def dimT0 : DimTable := ⟨[⟨1, "Ab"⟩], 2⟩

/-- Sample fact row passing every validation check. -/
def validFactRow : FactRow :=
  ⟨some 20240101, some 1, some 1, none, some 0, none, some 1, none, none, "DB_SALES", none⟩

/-- Sample fact row violating the required-key checks (all keys null). -/
def nullKeyFactRow : FactRow :=
  ⟨none, none, none, none, none, none, none, none, none, "DB_SALES", none⟩

/-- Sample fact rows sitting in the warehouse under the sibling feeds' tags. -/
def aggJsonRow : FactRow :=
  ⟨some 20240101, some 1, some 1, none, some 0, none, some 2, none, none, "AGG_JSON", none⟩

/-! ## Lemma library -/

theorem insertLe_perm (le : α → α → Bool) (a : α) :
    ∀ l : List α, List.Perm (insertLe le a l) (a :: l) := by
  intro l
  induction l with
  | nil => simp [insertLe]
  | cons b bs ih =>
      simp only [insertLe]
      split
      · exact List.Perm.refl _
      · exact (ih.cons b).trans (List.Perm.swap a b bs)

theorem sortLe_perm (le : α → α → Bool) : ∀ l : List α, List.Perm (sortLe le l) l := by
  intro l
  induction l with
  | nil => exact List.Perm.refl _
  | cons a as ih => exact (insertLe_perm le a (sortLe le as)).trans (ih.cons a)

theorem insertLe_pairwise (le : α → α → Bool)
    (htot : ∀ a b, le a b = true ∨ le b a = true)
    (htrans : ∀ a b c, le a b = true → le b c = true → le a c = true)
    (a : α) : ∀ l : List α, l.Pairwise (fun x y => le x y = true) →
    (insertLe le a l).Pairwise (fun x y => le x y = true) := by
  intro l
  induction l with
  | nil => intro _; simp [insertLe]
  | cons b bs ih =>
      intro h
      rw [List.pairwise_cons] at h
      simp only [insertLe]
      split
      · rename_i hab
        refine List.pairwise_cons.mpr ⟨?_, List.pairwise_cons.mpr ⟨h.1, h.2⟩⟩
        intro x hx
        rcases List.mem_cons.mp hx with hxb | hxbs
        · exact hxb ▸ hab
        · exact htrans a b x hab (h.1 x hxbs)
      · rename_i hnab
        have hba : le b a = true := (htot a b).resolve_left hnab
        refine List.pairwise_cons.mpr ⟨?_, ih h.2⟩
        intro x hx
        have hx' := (insertLe_perm le a bs).mem_iff.mp hx
        rcases List.mem_cons.mp hx' with hxa | hxbs
        · exact hxa ▸ hba
        · exact h.1 x hxbs

theorem sortLe_pairwise (le : α → α → Bool)
    (htot : ∀ a b, le a b = true ∨ le b a = true)
    (htrans : ∀ a b c, le a b = true → le b c = true → le a c = true) :
    ∀ l : List α, (sortLe le l).Pairwise (fun x y => le x y = true) := by
  intro l
  induction l with
  | nil => simp [sortLe]
  | cons a as ih => exact insertLe_pairwise le htot htrans a _ ih


/-! ## Structural lemmas about the matching loop -/

theorem mem_candFilter {ws : List WorkInv} {c : CreditLine} {w : WorkInv}
    (h : w ∈ candFilter ws c) : w ∈ ws := by
  simp only [candFilter] at h
  split at h
  · split at h
    · exact (List.mem_filter.mp h).1
    · exact (List.mem_filter.mp (List.mem_filter.mp h).1).1
  · split at h
    · exact (List.mem_filter.mp (List.mem_filter.mp h).1).1
    · exact (List.mem_filter.mp (List.mem_filter.mp (List.mem_filter.mp h).1).1).1

theorem mem_orderCandidates {c : CreditLine} {cands : List WorkInv} {w : WorkInv}
    (h : w ∈ orderCandidates c cands) : w ∈ cands := by
  simp only [orderCandidates] at h
  split at h
  · split at h
    · exact (sortLe_perm _ _).mem_iff.mp h
    · exact (List.mem_filter.mp ((sortLe_perm _ _).mem_iff.mp h)).1
  · exact (sortLe_perm _ _).mem_iff.mp h

/-- Case analysis on the loop body: either the credit produced no link and the
ledger is unchanged, or it was linked to the first fitting candidate `w` of
the ordered candidate list and exactly the entries labelled `w.idx` were
decremented (clamped at zero). -/
theorem processCredit_cases (ws : List WorkInv) (c : CreditLine) :
    ((processCredit ws c).1 = ws ∧ matchedIdx (processCredit ws c).2.outcome = none) ∨
    (∃ w, w ∈ candFilter ws c ∧
      (orderCandidates c (candFilter ws c)).find? (fitsB |c.quantity|) = some w ∧
      processCredit ws c =
        (ws.map fun v =>
          if v.idx = w.idx then { v with remaining := max 0 (v.remaining - |c.quantity|) }
          else v,
         ⟨c, .matched w.idx w.inv.docEntry w.inv.lineNum w.inv.docNum w.inv.docDate⟩)) := by
  simp only [processCredit]
  split
  · exact Or.inl ⟨rfl, rfl⟩
  · split
    · exact Or.inl ⟨rfl, rfl⟩
    · split
      · exact Or.inl ⟨rfl, rfl⟩
      · rename_i w hfind
        exact Or.inr ⟨w, mem_orderCandidates (List.mem_of_find?_eq_some hfind), hfind, rfl⟩

theorem processCredit_credit (ws : List WorkInv) (c : CreditLine) :
    (processCredit ws c).2.credit = c := by
  simp only [processCredit]
  split
  · rfl
  · split
    · rfl
    · split <;> rfl

theorem processCredit_idx (ws : List WorkInv) (c : CreditLine) :
    (processCredit ws c).1.map (·.idx) = ws.map (·.idx) := by
  rcases processCredit_cases ws c with ⟨h, _⟩ | ⟨w, _, _, h⟩
  · rw [h]
  · rw [h]
    simp only [List.map_map]
    apply List.map_congr_left
    intro v _
    by_cases hv : v.idx = w.idx <;> simp [hv]

theorem processCredit_nonneg {ws : List WorkInv} {c : CreditLine}
    (h : ∀ v ∈ ws, 0 ≤ v.remaining) :
    ∀ v ∈ (processCredit ws c).1, 0 ≤ v.remaining := by
  rcases processCredit_cases ws c with ⟨heq, _⟩ | ⟨w, _, _, heq⟩
  · rw [heq]; exact h
  · rw [heq]
    intro v hv
    rcases List.mem_map.mp hv with ⟨u, hu, rfl⟩
    by_cases hc : u.idx = w.idx
    · rw [if_pos hc]
      exact le_max_left 0 _
    · rw [if_neg hc]
      exact h u hu

theorem filter_idx_single {ws : List WorkInv} {w : WorkInv}
    (hnd : (ws.map (·.idx)).Nodup) (hw : w ∈ ws) :
    ws.filter (fun v => decide (v.idx = w.idx)) = [w] := by
  induction ws with
  | nil => cases hw
  | cons a as ih =>
      rw [List.map_cons, List.nodup_cons] at hnd
      rcases List.mem_cons.mp hw with rfl | hw'
      · rw [List.filter_cons, if_pos (by simp)]
        have hnil : as.filter (fun v => decide (v.idx = w.idx)) = [] := by
          rw [List.filter_eq_nil_iff]
          intro v hv hcontra
          exact hnd.1 ((by simpa using hcontra) ▸ List.mem_map_of_mem (·.idx) hv)
        rw [hnil]
      · have hne : ¬ a.idx = w.idx := by
          intro heq
          exact hnd.1 (heq ▸ List.mem_map_of_mem (·.idx) hw')
        rw [List.filter_cons, if_neg (by simpa using hne)]
        exact ih hnd.2 hw'

theorem remOf_update {ws : List WorkInv} {w : WorkInv} (n : ℚ)
    (hnd : (ws.map (·.idx)).Nodup) (hw : w ∈ ws) (i : Nat) :
    remOf (ws.map fun v =>
      if v.idx = w.idx then { v with remaining := max 0 (v.remaining - n) } else v) i =
    if i = w.idx then max 0 (w.remaining - n) else remOf ws i := by
  unfold remOf
  rw [List.filter_map]
  have hcomp : ((fun v : WorkInv => decide (v.idx = i)) ∘
      fun v => if v.idx = w.idx then { v with remaining := max 0 (v.remaining - n) } else v) =
      fun v : WorkInv => decide (v.idx = i) := by
    funext v
    by_cases hc : v.idx = w.idx <;> simp [hc]
  rw [hcomp]
  by_cases hi : i = w.idx
  · subst hi
    rw [filter_idx_single hnd hw]
    simp
  · have huntouched : ∀ v ∈ ws.filter (fun v => decide (v.idx = i)),
        (if v.idx = w.idx then { v with remaining := max 0 (v.remaining - n) } else v) = v := by
      intro v hv
      have hvi : v.idx = i := by simpa using (List.mem_filter.mp hv).2
      rw [if_neg (by rw [hvi]; exact hi)]
    rw [List.map_congr_left huntouched, if_neg hi]
    simp

/-- When the loop links a credit to some candidate index `i`, the needed
quantity fits that entry up to `qty_tol`, its ledger value is decremented
(clamped at zero) and every other label's ledger value is untouched. -/
theorem processCredit_matched {ws : List WorkInv} {c : CreditLine} {i : Nat}
    (hnd : (ws.map (·.idx)).Nodup)
    (hm : matchedIdx (processCredit ws c).2.outcome = some i) :
    |c.quantity| ≤ remOf ws i + qty_tol ∧
    remOf (processCredit ws c).1 i = max 0 (remOf ws i - |c.quantity|) ∧
    ∀ j, j ≠ i → remOf (processCredit ws c).1 j = remOf ws j := by
  rcases processCredit_cases ws c with ⟨_, hnone⟩ | ⟨w, hwmem, hfind, heq⟩
  · rw [hnone] at hm; cases hm
  · have hwidx : i = w.idx := by
      rw [heq] at hm
      simpa [matchedIdx] using hm.symm
    subst hwidx
    have hw_mem : w ∈ ws := mem_candFilter hwmem
    have hfit : |c.quantity| ≤ w.remaining + qty_tol := by
      have := List.find?_some hfind
      simpa [fitsB] using this
    have hrem : remOf ws w.idx = w.remaining := by
      unfold remOf
      rw [filter_idx_single hnd hw_mem]
      simp
    refine ⟨by rw [hrem]; exact hfit, ?_, ?_⟩
    · rw [heq]
      rw [show (ws.map fun v =>
          if v.idx = w.idx then { v with remaining := max 0 (v.remaining - |c.quantity|) }
          else v, (⟨c, .matched w.idx w.inv.docEntry w.inv.lineNum w.inv.docNum
            w.inv.docDate⟩ : CreditResult)).1 =
          ws.map fun v =>
            if v.idx = w.idx then { v with remaining := max 0 (v.remaining - |c.quantity|) }
            else v from rfl]
      rw [remOf_update |c.quantity| hnd hw_mem w.idx, if_pos rfl, hrem]
    · intro j hj
      rw [heq]
      rw [show (ws.map fun v =>
          if v.idx = w.idx then { v with remaining := max 0 (v.remaining - |c.quantity|) }
          else v, (⟨c, .matched w.idx w.inv.docEntry w.inv.lineNum w.inv.docNum
            w.inv.docDate⟩ : CreditResult)).1 =
          ws.map fun v =>
            if v.idx = w.idx then { v with remaining := max 0 (v.remaining - |c.quantity|) }
            else v from rfl]
      rw [remOf_update |c.quantity| hnd hw_mem j, if_neg hj]

/-! ## Properties of the candidate ordering -/

theorem dateAscLe_total (a b : Option Int) : dateAscLe a b = true ∨ dateAscLe b a = true := by
  rcases a with _ | x <;> rcases b with _ | y <;> simp [dateAscLe]
  exact Int.le_total x y

theorem dateAscLe_trans (a b c : Option Int) :
    dateAscLe a b = true → dateAscLe b c = true → dateAscLe a c = true := by
  rcases a with _ | x <;> rcases b with _ | y <;> rcases c with _ | z <;>
    simp [dateAscLe]
  exact fun h h' => le_trans h h'

theorem dateDescLe_total (a b : Option Int) :
    dateDescLe a b = true ∨ dateDescLe b a = true := by
  rcases a with _ | x <;> rcases b with _ | y <;> simp [dateDescLe]
  exact Int.le_total y x

theorem dateDescLe_trans (a b c : Option Int) :
    dateDescLe a b = true → dateDescLe b c = true → dateDescLe a c = true := by
  rcases a with _ | x <;> rcases b with _ | y <;> rcases c with _ | z <;>
    simp [dateDescLe]
  exact fun h h' => le_trans h' h

/-- C5: for a credit line with a known date, the candidate ordering first
restricts to candidates dated on or before the credit (most recent first,
i.e. sorted by descending date), and only when no such candidate exists does
it use the remaining candidates, sorted by ascending date. -/
theorem candidate_ordering (c : CreditLine) (d : Int) (cands : List WorkInv)
    (hd : c.docDate = some d) :
    (cands.filter (fun w => dateLeB w.inv.docDate d) ≠ [] →
      List.Perm (orderCandidates c cands)
        (cands.filter fun w => dateLeB w.inv.docDate d) ∧
      (orderCandidates c cands).Pairwise
        (fun a b => dateDescLe a.inv.docDate b.inv.docDate = true) ∧
      ∀ w ∈ orderCandidates c cands, dateLeB w.inv.docDate d = true) ∧
    (cands.filter (fun w => dateLeB w.inv.docDate d) = [] →
      List.Perm (orderCandidates c cands) cands ∧
      (orderCandidates c cands).Pairwise
        (fun a b => dateAscLe a.inv.docDate b.inv.docDate = true)) := by
  have hord : orderCandidates c cands =
      (if (cands.filter fun w => dateLeB w.inv.docDate d).isEmpty then
        sortLe (fun a b => dateAscLe a.inv.docDate b.inv.docDate) cands
      else
        sortLe (fun a b => dateDescLe a.inv.docDate b.inv.docDate)
          (cands.filter fun w => dateLeB w.inv.docDate d)) := by
    simp [orderCandidates, hd]
  constructor
  · intro hne
    have hemp : (cands.filter fun w => dateLeB w.inv.docDate d).isEmpty = false := by
      simpa [List.isEmpty_iff] using hne
    rw [hord, hemp]
    simp only [Bool.false_eq_true, if_false]
    refine ⟨sortLe_perm _ _, ?_, ?_⟩
    · exact sortLe_pairwise (fun a b => dateDescLe a.inv.docDate b.inv.docDate)
        (fun (a b : WorkInv) => dateDescLe_total a.inv.docDate b.inv.docDate)
        (fun (a b c' : WorkInv) h h' =>
          dateDescLe_trans a.inv.docDate b.inv.docDate c'.inv.docDate h h') _
    · intro w hw
      have hw' := (sortLe_perm (fun a b => dateDescLe a.inv.docDate b.inv.docDate)
        (cands.filter fun w => dateLeB w.inv.docDate d)).mem_iff.mp hw
      exact (List.mem_filter.mp hw').2
  · intro heq
    have hemp : (cands.filter fun w => dateLeB w.inv.docDate d).isEmpty = true := by
      simp [List.isEmpty_iff, heq]
    rw [hord, hemp]
    simp only [if_true]
    exact ⟨sortLe_perm _ _,
      sortLe_pairwise (fun a b => dateAscLe a.inv.docDate b.inv.docDate)
        (fun (a b : WorkInv) => dateAscLe_total a.inv.docDate b.inv.docDate)
        (fun (a b c' : WorkInv) h h' =>
          dateAscLe_trans a.inv.docDate b.inv.docDate c'.inv.docDate h h') _⟩

/-- Concrete instantiation of `candidate_ordering` on `sampleCands`. -/
theorem candidate_ordering_witness :
    (sampleCredit.docDate = some 10 ∧
     sampleCands.filter (fun w => dateLeB w.inv.docDate 10) ≠ []) ∧
    (List.Perm (orderCandidates sampleCredit sampleCands)
        (sampleCands.filter fun w => dateLeB w.inv.docDate 10) ∧
     (orderCandidates sampleCredit sampleCands).Pairwise
        (fun a b => dateDescLe a.inv.docDate b.inv.docDate = true) ∧
     ∀ w ∈ orderCandidates sampleCredit sampleCands, dateLeB w.inv.docDate 10 = true) :=
  ⟨⟨rfl, by decide⟩, (candidate_ordering sampleCredit 10 sampleCands rfl).1 (by decide)⟩

/-! ## The no-double-consumption invariant -/

theorem matchedQtyAt_cons (r : CreditResult) (rs : List CreditResult) (i : Nat) :
    matchedQtyAt (r :: rs) i =
      (if matchedIdx r.outcome = some i then |r.credit.quantity| else 0) +
        matchedQtyAt rs i := by
  unfold matchedQtyAt
  rw [List.filter_cons]
  by_cases h : matchedIdx r.outcome = some i <;> simp [h]

theorem matchedCountAt_cons (r : CreditResult) (rs : List CreditResult) (i : Nat) :
    matchedCountAt (r :: rs) i =
      (if matchedIdx r.outcome = some i then 1 else 0) + matchedCountAt rs i := by
  unfold matchedCountAt
  rw [List.filter_cons]
  by_cases h : matchedIdx r.outcome = some i <;> simp [h, Nat.add_comm]

theorem creditPassAux_nonneg :
    ∀ (cs : List CreditLine) (ws : List WorkInv), (∀ v ∈ ws, 0 ≤ v.remaining) →
      ∀ v ∈ (creditPassAux ws cs).1, 0 ≤ v.remaining := by
  intro cs
  induction cs with
  | nil => intro ws h; simpa [creditPassAux] using h
  | cons c cs ih =>
      intro ws h
      simp only [creditPassAux]
      exact ih _ (processCredit_nonneg h)

theorem creditPassAux_idx :
    ∀ (cs : List CreditLine) (ws : List WorkInv),
      (creditPassAux ws cs).1.map (·.idx) = ws.map (·.idx) := by
  intro cs
  induction cs with
  | nil => intro ws; rfl
  | cons c cs ih =>
      intro ws
      simp only [creditPassAux]
      rw [ih, processCredit_idx]

/-- Ledger bound along the whole pass: the quantity consumed from label `i`
plus the remaining quantity at label `i` never exceeds the starting remaining
quantity by more than `qty_tol` per match at `i`. -/
theorem creditPassAux_bound (i : Nat) :
    ∀ (cs : List CreditLine) (ws : List WorkInv), (ws.map (·.idx)).Nodup →
      matchedQtyAt (creditPassAux ws cs).2 i + remOf (creditPassAux ws cs).1 i ≤
        remOf ws i + (matchedCountAt (creditPassAux ws cs).2 i : ℚ) * qty_tol := by
  intro cs
  induction cs with
  | nil =>
      intro ws _
      simp [creditPassAux, matchedQtyAt, matchedCountAt]
  | cons c cs ih =>
      intro ws hnd
      have hnd' : ((processCredit ws c).1.map (·.idx)).Nodup := by
        rw [processCredit_idx]; exact hnd
      have IH := ih (processCredit ws c).1 hnd'
      simp only [creditPassAux, matchedQtyAt_cons, matchedCountAt_cons, processCredit_credit]
      by_cases hm : matchedIdx (processCredit ws c).2.outcome = some i
      · rcases processCredit_matched hnd hm with ⟨hfit, hdec, _⟩
        rw [if_pos hm, if_pos hm]
        rw [hdec] at IH
        have htol : (0:ℚ) ≤ qty_tol := by norm_num [qty_tol]
        have hmax : max 0 (remOf ws i - |c.quantity|) ≤ remOf ws i - |c.quantity| + qty_tol := by
          rcases le_total 0 (remOf ws i - |c.quantity|) with h | h
          · rw [max_eq_right h]; linarith
          · rw [max_eq_left h]; linarith
        push_cast
        linarith [IH, hmax]
      · rw [if_neg hm, if_neg hm]
        rcases processCredit_cases ws c with ⟨hws, _⟩ | ⟨w, _, _, heq⟩
        · rw [hws] at IH ⊢
          push_cast
          linarith [IH]
        · have hm' : matchedIdx (processCredit ws c).2.outcome = some w.idx := by
            rw [heq]; rfl
          have hne : i ≠ w.idx := by
            intro hcontra
            exact hm (hcontra ▸ hm')
          rcases processCredit_matched hnd hm' with ⟨_, _, hframe⟩
          rw [hframe i hne] at IH
          push_cast
          linarith [IH]

theorem initWorkFrom_idx :
    ∀ (vs : List InvLine) (k : Nat),
      (initWorkFrom k vs).map (·.idx) = List.range' k vs.length := by
  intro vs
  induction vs with
  | nil => intro k; rfl
  | cons v vs ih =>
      intro k
      rw [initWorkFrom, List.map_cons, List.length_cons, List.range'_succ, ih]

theorem initWork_idx_nodup (invs : List InvLine) :
    ((initWork invs).map (·.idx)).Nodup := by
  rw [initWork, initWorkFrom_idx]
  exact List.nodup_range' 0 invs.length

theorem initWorkFrom_nonneg {vs : List InvLine} (h : ∀ u ∈ vs, 0 ≤ u.quantity) :
    ∀ (k : Nat), ∀ v ∈ initWorkFrom k vs, 0 ≤ v.remaining := by
  induction vs with
  | nil => intro k v hv; cases hv
  | cons u vs ih =>
      intro k v hv
      rcases List.mem_cons.mp hv with rfl | hv'
      · exact h u (List.mem_cons_self u vs)
      · exact ih (fun x hx => h x (List.mem_cons_of_mem u hx)) (k + 1) v hv'

theorem initWorkFrom_filter_lt :
    ∀ (vs : List InvLine) (k j : Nat), j < k →
      (initWorkFrom k vs).filter (fun w => decide (w.idx = j)) = [] := by
  intro vs
  induction vs with
  | nil => intro k j _; rfl
  | cons v vs ih =>
      intro k j hj
      rw [initWorkFrom, List.filter_cons,
        if_neg (by simp only [decide_eq_true_eq]; omega)]
      exact ih (k + 1) j (by omega)

theorem remOf_initWorkFrom :
    ∀ (vs : List InvLine) (k i : Nat),
      remOf (initWorkFrom k vs) (k + i) = ((vs[i]?).map (·.quantity)).getD 0 := by
  intro vs
  induction vs with
  | nil => intro k i; simp [remOf, initWorkFrom]
  | cons v vs ih =>
      intro k i
      cases i with
      | zero =>
          unfold remOf
          rw [initWorkFrom, List.filter_cons, if_pos (by simp)]
          rw [initWorkFrom_filter_lt vs (k + 1) (k + 0) (by omega)]
          simp
      | succ i =>
          unfold remOf
          rw [initWorkFrom, List.filter_cons,
            if_neg (by simp only [decide_eq_true_eq]; omega)]
          have := ih (k + 1) i
          rw [show k + 1 + i = k + (i + 1) from by omega] at this
          unfold remOf at this
          rw [this, List.getElem?_cons_succ]

theorem remOf_initWork (invs : List InvLine) (i : Nat) :
    remOf (initWork invs) i = ((invs[i]?).map (·.quantity)).getD 0 := by
  have := remOf_initWorkFrom invs 0 i
  rw [Nat.zero_add] at this
  exact this

theorem remOf_nonneg {ws : List WorkInv} (h : ∀ v ∈ ws, 0 ≤ v.remaining) (i : Nat) :
    0 ≤ remOf ws i := by
  unfold remOf
  apply List.sum_nonneg
  intro x hx
  rcases List.mem_map.mp hx with ⟨v, hv, rfl⟩
  exact h v (List.mem_filter.mp hv).1

/-- C3 (amended): along the matching loop, with nonnegative invoice
quantities, every candidate's remaining quantity stays nonnegative after each
processed credit line; and the total return quantity matched against any one
candidate exceeds that candidate's original quantity by at most `qty_tol` per
matched return (the loop accepts a candidate whose remaining quantity is
within `qty_tol` below the needed quantity, so the strict bound of the
original claim fails). -/
theorem reconciler_consumption_bound
    (invs : List InvLine) (credits : List CreditLine)
    (h0 : ∀ v ∈ invs, 0 ≤ v.quantity) (i : Nat) :
    (∀ n, ∀ w ∈ (creditPassAux (initWork invs) (credits.take n)).1, 0 ≤ w.remaining) ∧
    matchedQtyAt (creditPass invs credits).2 i ≤
      ((invs[i]?).map (·.quantity)).getD 0 +
        (matchedCountAt (creditPass invs credits).2 i : ℚ) * qty_tol := by
  have hinit : ∀ v ∈ initWork invs, 0 ≤ v.remaining := initWorkFrom_nonneg h0 0
  constructor
  · intro n
    exact creditPassAux_nonneg (credits.take n) (initWork invs) hinit
  · have hb := creditPassAux_bound i credits (initWork invs) (initWork_idx_nodup invs)
    rw [remOf_initWork] at hb
    have hnn : 0 ≤ remOf (creditPassAux (initWork invs) credits).1 i :=
      remOf_nonneg (creditPassAux_nonneg credits (initWork invs) hinit) i
    unfold creditPass
    linarith [hb, hnn]

/-- C3 counterexample: the credit line `ovCredit` needs quantity `1 + 5e-7`,
which is within `qty_tol` of the sample invoice's remaining quantity 1, so the
loop links it; the quantity consumed from that candidate strictly exceeds the
candidate's original quantity. -/
theorem consumption_exceeds_original :
    matchedQtyAt (creditPass [ovInv] [ovCredit]).2 0 > ovInv.quantity := by
  norm_num [creditPass, creditPassAux, processCredit, initWork, initWorkFrom, ovInv, ovCredit,
    candFilter, orderCandidates, creditUnitPrice, invUnitPrice, qty_tol, price_tol, fitsB,
    dateLeB, dateDescLe, dateAscLe, sortLe, insertLe, List.filter, List.find?, abs_of_pos,
    abs_of_nonneg, matchedQtyAt, matchedIdx]

/-- Concrete instantiation of `reconciler_consumption_bound` on the sample
invoice and credit. -/
theorem reconciler_consumption_bound_witness :
    (∀ v ∈ [ovInv], 0 ≤ v.quantity) ∧
    ((∀ n, ∀ w ∈ (creditPassAux (initWork [ovInv]) ([ovCredit].take n)).1, 0 ≤ w.remaining) ∧
     matchedQtyAt (creditPass [ovInv] [ovCredit]).2 0 ≤
       ((([ovInv])[0]?).map (·.quantity)).getD 0 +
         (matchedCountAt (creditPass [ovInv] [ovCredit]).2 0 : ℚ) * qty_tol) :=
  ⟨by simp [ovInv],
   reconciler_consumption_bound [ovInv] [ovCredit] (by simp [ovInv]) 0⟩

/-! ## Greedy first-fit -/

theorem find?_first {α : Type} (p : α → Bool) :
    ∀ (l : List α) (a : α), l.find? p = some a →
      ∃ l1 l2, l = l1 ++ a :: l2 ∧ (∀ u ∈ l1, p u = false) ∧ p a = true := by
  intro l
  induction l with
  | nil => intro a h; cases h
  | cons b bs ih =>
      intro a h
      by_cases hb : p b = true
      · rw [List.find?_cons_of_pos _ hb] at h
        injection h with h
        subst h
        refine ⟨[], bs, rfl, ?_, hb⟩
        intro u hu
        cases hu
      · rw [List.find?_cons_of_neg _ hb] at h
        rcases ih a h with ⟨l1, l2, hsplit, h1, h2⟩
        refine ⟨b :: l1, l2, by rw [hsplit, List.cons_append], ?_, h2⟩
        intro u hu
        rcases List.mem_cons.mp hu with rfl | hu'
        · exact Bool.eq_false_iff.mpr hb
        · exact h1 u hu'

/-- C4 (amended): for a credit line that is not skipped and has a non-empty
candidate set, the loop links it to the first candidate of the ordered list
whose remaining quantity is at least the needed quantity minus `qty_tol` (the
original claim's strict requirement `remaining ≥ needed` fails by up to
`qty_tol`); that candidate's ledger entry is decremented by the needed
quantity, clamped below at zero (not always by exactly the line's quantity);
all other entries are untouched; and the line inherits the candidate's
document date as its resolved date when the candidate has one.  When no
candidate fits, the line stays unmatched, the ledger is unchanged, and the
line keeps its own date. -/
theorem greedy_first_fit (ws : List WorkInv) (c : CreditLine)
    (hnd : (ws.map (·.idx)).Nodup)
    (hskip : ¬(|c.quantity| ≤ qty_tol ∨ |c.lineTotal| ≤ price_tol))
    (hcands : (candFilter ws c).isEmpty = false) :
    (∃ w l1 l2, orderCandidates c (candFilter ws c) = l1 ++ w :: l2 ∧
       (∀ u ∈ l1, ¬ |c.quantity| ≤ u.remaining + qty_tol) ∧
       |c.quantity| ≤ w.remaining + qty_tol ∧
       (processCredit ws c).2.outcome =
         .matched w.idx w.inv.docEntry w.inv.lineNum w.inv.docNum w.inv.docDate ∧
       remOf (processCredit ws c).1 w.idx = max 0 (w.remaining - |c.quantity|) ∧
       (∀ j, j ≠ w.idx → remOf (processCredit ws c).1 j = remOf ws j) ∧
       (∀ d, w.inv.docDate = some d → resolvedDate (processCredit ws c).2 = some d)) ∨
    ((∀ u ∈ orderCandidates c (candFilter ws c), ¬ |c.quantity| ≤ u.remaining + qty_tol) ∧
       (processCredit ws c).2.outcome = .failed ∧
       (processCredit ws c).1 = ws ∧
       resolvedDate (processCredit ws c).2 = c.docDate) := by
  have heq : processCredit ws c =
      match (orderCandidates c (candFilter ws c)).find? (fitsB |c.quantity|) with
      | none => (ws, ⟨c, .failed⟩)
      | some w =>
          (ws.map fun v =>
            if v.idx = w.idx then { v with remaining := max 0 (v.remaining - |c.quantity|) }
            else v,
           ⟨c, .matched w.idx w.inv.docEntry w.inv.lineNum w.inv.docNum w.inv.docDate⟩) := by
    simp only [processCredit, if_neg hskip]
    rw [if_neg (by simp [hcands])]
  rcases hf : (orderCandidates c (candFilter ws c)).find? (fitsB |c.quantity|) with _ | w
  · rw [hf] at heq
    refine Or.inr ⟨?_, by rw [heq], by rw [heq], by rw [heq]; rfl⟩
    intro u hu
    have := List.find?_eq_none.mp hf u hu
    simpa [fitsB] using this
  · rw [hf] at heq
    have hm : matchedIdx (processCredit ws c).2.outcome = some w.idx := by
      rw [heq]; rfl
    rcases find?_first (fitsB |c.quantity|) _ w hf with ⟨l1, l2, hsplit, h1, h2⟩
    rcases processCredit_matched hnd hm with ⟨_, hdec, hframe⟩
    have hw_mem : w ∈ ws :=
      mem_candFilter (mem_orderCandidates (List.mem_of_find?_eq_some hf))
    have hrem : remOf ws w.idx = w.remaining := by
      unfold remOf
      rw [filter_idx_single hnd hw_mem]
      simp
    refine Or.inl ⟨w, l1, l2, hsplit, ?_, by simpa [fitsB] using h2,
      by rw [heq], by rw [hdec, hrem], hframe, ?_⟩
    · intro u hu
      have := h1 u hu
      simpa [fitsB] using this
    · intro d hd
      rw [heq]
      simp [resolvedDate, hd]

/-- C4 counterexample: the ordered candidate list is `[cexInvLow, cexInvFull]`
(most recent prior sale first); `cexInvLow`'s remaining quantity is strictly
below the needed quantity while `cexInvFull`'s covers it, yet the loop links
the credit to `cexInvLow`. -/
theorem greedy_links_candidate_below_needed :
    (processCredit (initWork [cexInvLow, cexInvFull]) cexCredit).2.outcome =
      .matched 0 31 0 3 (some 150) ∧
    cexInvLow.quantity < |cexCredit.quantity| ∧
    |cexCredit.quantity| ≤ cexInvFull.quantity := by
  refine ⟨?_, by norm_num [cexInvLow, cexCredit], by norm_num [cexInvFull, cexCredit]⟩
  norm_num [processCredit, initWork, initWorkFrom, cexInvLow, cexInvFull, cexCredit,
    candFilter, orderCandidates, creditUnitPrice, invUnitPrice, qty_tol, price_tol, fitsB,
    dateLeB, dateDescLe, dateAscLe, sortLe, insertLe, List.filter, List.find?, abs_of_pos,
    abs_of_nonneg]

/-- Concrete instantiation of `greedy_first_fit` on the two sample invoices. -/
theorem greedy_first_fit_witness :
    (((initWork [cexInvLow, cexInvFull]).map (·.idx)).Nodup ∧
     ¬(|cexCredit.quantity| ≤ qty_tol ∨ |cexCredit.lineTotal| ≤ price_tol) ∧
     (candFilter (initWork [cexInvLow, cexInvFull]) cexCredit).isEmpty = false) ∧
    ((∃ w l1 l2,
        orderCandidates cexCredit (candFilter (initWork [cexInvLow, cexInvFull]) cexCredit) =
          l1 ++ w :: l2 ∧
        (∀ u ∈ l1, ¬ |cexCredit.quantity| ≤ u.remaining + qty_tol) ∧
        |cexCredit.quantity| ≤ w.remaining + qty_tol ∧
        (processCredit (initWork [cexInvLow, cexInvFull]) cexCredit).2.outcome =
          .matched w.idx w.inv.docEntry w.inv.lineNum w.inv.docNum w.inv.docDate ∧
        remOf (processCredit (initWork [cexInvLow, cexInvFull]) cexCredit).1 w.idx =
          max 0 (w.remaining - |cexCredit.quantity|) ∧
        (∀ j, j ≠ w.idx →
          remOf (processCredit (initWork [cexInvLow, cexInvFull]) cexCredit).1 j =
            remOf (initWork [cexInvLow, cexInvFull]) j) ∧
        (∀ d, w.inv.docDate = some d →
          resolvedDate (processCredit (initWork [cexInvLow, cexInvFull]) cexCredit).2 =
            some d)) ∨
     ((∀ u ∈ orderCandidates cexCredit (candFilter (initWork [cexInvLow, cexInvFull]) cexCredit),
         ¬ |cexCredit.quantity| ≤ u.remaining + qty_tol) ∧
        (processCredit (initWork [cexInvLow, cexInvFull]) cexCredit).2.outcome = .failed ∧
        (processCredit (initWork [cexInvLow, cexInvFull]) cexCredit).1 =
          initWork [cexInvLow, cexInvFull] ∧
        resolvedDate (processCredit (initWork [cexInvLow, cexInvFull]) cexCredit).2 =
          cexCredit.docDate)) :=
  ⟨⟨by decide, by norm_num [cexCredit, qty_tol, price_tol],
    by norm_num [candFilter, initWork, initWorkFrom, cexInvLow, cexInvFull, cexCredit,
      creditUnitPrice, invUnitPrice, qty_tol, price_tol, List.filter, abs_of_pos,
      abs_of_nonneg]⟩,
   greedy_first_fit (initWork [cexInvLow, cexInvFull]) cexCredit (by decide)
     (by norm_num [cexCredit, qty_tol, price_tol])
     (by norm_num [candFilter, initWork, initWorkFrom, cexInvLow, cexInvFull, cexCredit,
       creditUnitPrice, invUnitPrice, qty_tol, price_tol, List.filter, abs_of_pos,
       abs_of_nonneg])⟩

/-! ## The reported unmatched count -/

theorem outcome_partition :
    ∀ rs : List CreditResult,
      (rs.filter fun r => !r.isMatched).length =
        (rs.filter fun r => decide (r.outcome = .skipped)).length +
        (rs.filter fun r => decide (r.outcome = .noCandidates)).length +
        (rs.filter fun r => decide (r.outcome = .failed)).length := by
  intro rs
  induction rs with
  | nil => rfl
  | cons r rs ih =>
      rcases r with ⟨c, o⟩
      cases o with
      | skipped =>
          rw [List.filter_cons_of_pos (by simp [CreditResult.isMatched]), List.filter_cons_of_pos (by simp [CreditResult.isMatched]),
            List.filter_cons_of_neg (by simp [CreditResult.isMatched]), List.filter_cons_of_neg (by simp [CreditResult.isMatched])]
          simp only [List.length_cons]
          omega
      | noCandidates =>
          rw [List.filter_cons_of_pos (by simp [CreditResult.isMatched]), List.filter_cons_of_neg (by simp [CreditResult.isMatched]),
            List.filter_cons_of_pos (by simp [CreditResult.isMatched]), List.filter_cons_of_neg (by simp [CreditResult.isMatched])]
          simp only [List.length_cons]
          omega
      | failed =>
          rw [List.filter_cons_of_pos (by simp [CreditResult.isMatched]), List.filter_cons_of_neg (by simp [CreditResult.isMatched]),
            List.filter_cons_of_neg (by simp [CreditResult.isMatched]), List.filter_cons_of_pos (by simp [CreditResult.isMatched])]
          simp only [List.length_cons]
          omega
      | matched i e l n d =>
          rw [List.filter_cons_of_neg (by simp [CreditResult.isMatched]), List.filter_cons_of_neg (by simp [CreditResult.isMatched]),
            List.filter_cons_of_neg (by simp [CreditResult.isMatched]), List.filter_cons_of_neg (by simp [CreditResult.isMatched])]
          omega

/-- C10: the reported reconciliation count equals the number of credit lines
left without a base document, which is the number of skipped no-op lines plus
the number with an empty candidate set plus the number whose candidates all
failed the quantity test; on the sample input with one zero-quantity credit
the reported count is 1 while no credit built a candidate set and failed. -/
theorem unmatched_count_includes_skipped :
    (∀ (invs : List InvLine) (credits : List CreditLine) res,
      resolve_credit_base_documents invs credits = some res →
        unmatchedCount res.2 =
          (res.2.filter fun r => decide (r.outcome = .skipped)).length +
          (res.2.filter fun r => decide (r.outcome = .noCandidates)).length +
          (res.2.filter fun r => decide (r.outcome = .failed)).length) ∧
    (resolve_credit_base_documents [ovInv] [zeroCredit] =
        some (creditPass [ovInv] [zeroCredit]) ∧
     unmatchedCount (creditPass [ovInv] [zeroCredit]).2 = 1 ∧
     ((creditPass [ovInv] [zeroCredit]).2.filter
        fun r => decide (r.outcome = .failed)).length <
       unmatchedCount (creditPass [ovInv] [zeroCredit]).2) := by
  constructor
  · intro invs credits res h
    unfold resolve_credit_base_documents at h
    split at h
    · cases h
    · injection h with h
      subst h
      exact outcome_partition _
  · have hcp : (creditPass [ovInv] [zeroCredit]).2 = [⟨zeroCredit, .skipped⟩] := by
      norm_num [creditPass, creditPassAux, processCredit, initWork, initWorkFrom, ovInv,
        zeroCredit, qty_tol, price_tol]
    refine ⟨by simp [resolve_credit_base_documents], ?_, ?_⟩
    · rw [hcp]; rfl
    · rw [hcp]; decide

/-- Concrete instantiation of `unmatched_count_includes_skipped` on the sample
no-op credit. -/
theorem unmatched_count_witness :
    resolve_credit_base_documents [ovInv] [zeroCredit] =
        some (creditPass [ovInv] [zeroCredit]) ∧
    unmatchedCount (creditPass [ovInv] [zeroCredit]).2 =
      ((creditPass [ovInv] [zeroCredit]).2.filter
        fun r => decide (r.outcome = .skipped)).length +
      ((creditPass [ovInv] [zeroCredit]).2.filter
        fun r => decide (r.outcome = .noCandidates)).length +
      ((creditPass [ovInv] [zeroCredit]).2.filter
        fun r => decide (r.outcome = .failed)).length :=
  ⟨by simp [resolve_credit_base_documents],
   unmatched_count_includes_skipped.1 [ovInv] [zeroCredit] _
     (by simp [resolve_credit_base_documents])⟩

/-! ## Net grouping -/

theorem mem_keysOf :
    ∀ (rows : List NetRow) (k : NetKey), k ∈ keysOf rows ↔ ∃ r ∈ rows, r.key = k := by
  intro rows
  induction rows with
  | nil => intro k; simp [keysOf]
  | cons r rs ih =>
      intro k
      simp only [keysOf, List.mem_cons, List.mem_filter, ih, decide_eq_true_eq]
      constructor
      · rintro (rfl | ⟨⟨u, hu, rfl⟩, _⟩)
        · exact ⟨r, Or.inl rfl, rfl⟩
        · exact ⟨u, Or.inr hu, rfl⟩
      · rintro ⟨u, hu | hu, rfl⟩
        · exact Or.inl (hu ▸ rfl)
        · by_cases hk : u.key = r.key
          · exact Or.inl hk
          · exact Or.inr ⟨⟨u, hu, rfl⟩, hk⟩

theorem keysOf_nodup : ∀ rows : List NetRow, (keysOf rows).Nodup := by
  intro rows
  induction rows with
  | nil => exact List.nodup_nil
  | cons r rs ih =>
      rw [keysOf, List.nodup_cons]
      refine ⟨?_, ih.filter _⟩
      intro hmem
      have := (List.mem_filter.mp hmem).2
      simp at this

theorem filterMap_key_single {f : NetKey → Option NetRow}
    (hf : ∀ k' g, f k' = some g → g.key = k') :
    ∀ (l : List NetKey), l.Nodup → ∀ k, k ∈ l →
      (l.filterMap f).filter (fun g => decide (g.key = k)) = (f k).toList := by
  intro l
  induction l with
  | nil => intro _ k hk; cases hk
  | cons a as ih =>
      intro hnd k hk
      rw [List.nodup_cons] at hnd
      have hother : ∀ g ∈ as.filterMap f, g.key ∈ as := by
        intro g hg
        rcases List.mem_filterMap.mp hg with ⟨k', hk', hfk'⟩
        rw [hf k' g hfk']
        exact hk'
      rw [List.filterMap_cons]
      rcases List.mem_cons.mp hk with rfl | hk'
      · have htail : (as.filterMap f).filter (fun g => decide (g.key = k)) = [] := by
          rw [List.filter_eq_nil_iff]
          intro g hg hkey
          apply hnd.1
          rw [← show g.key = k by simpa using hkey]
          exact hother g hg
        cases hfa : f k with
        | none => rw [htail]; rfl
        | some g =>
            rw [List.filter_cons_of_pos (by simp [hf k g hfa]), htail]
            rfl
      · have hak : a ≠ k := fun h => hnd.1 (h ▸ hk')
        cases hfa : f a with
        | none => exact ih hnd.2 k hk'
        | some g =>
            rw [List.filter_cons_of_neg (by simp [hf a g hfa, hak])]
            exact ih hnd.2 k hk'

/-- C6: grouping facts.  For every key, if the summed quantity and amount over
the rows carrying that key are both below the zero thresholds, no consolidated
row carries the key; otherwise, if the key occurs at all, exactly one
consolidated row carries it, holding the summed quantity, the summed amount
and the earliest date of its group.  In particular the sample fully offset
sale produces no row, and the sample partial offset produces one row with the
netted quantity 6, amount 60 and the sale's date. -/
theorem net_grouping_spec :
    (∀ (rows : List NetRow) (k : NetKey),
      ((|((rows.filter fun r => decide (r.key = k)).map (·.quantity)).sum| < qty_zero_eps ∧
        |((rows.filter fun r => decide (r.key = k)).map (·.lineTotal)).sum| < amt_zero_eps) →
        ∀ g ∈ netGroups rows, g.key ≠ k) ∧
      (¬(|((rows.filter fun r => decide (r.key = k)).map (·.quantity)).sum| < qty_zero_eps ∧
         |((rows.filter fun r => decide (r.key = k)).map (·.lineTotal)).sum| < amt_zero_eps) →
        (∃ r ∈ rows, r.key = k) →
        (netGroups rows).filter (fun g => decide (g.key = k)) = [groupAgg rows k] ∧
        (groupAgg rows k).quantity =
          ((rows.filter fun r => decide (r.key = k)).map (·.quantity)).sum ∧
        (groupAgg rows k).lineTotal =
          ((rows.filter fun r => decide (r.key = k)).map (·.lineTotal)).sum ∧
        (groupAgg rows k).docDate =
          dateMin ((rows.filter fun r => decide (r.key = k)).map (·.docDate)))) ∧
    netGroups [netSale, netRetFull] = [] ∧
    netGroups [netSale, netRetPart] = [⟨netKey0, some 20240105, 6, 60, some 1⟩] := by
  have hf : ∀ (rows : List NetRow) (k' : NetKey) (g : NetRow),
      (if |(groupAgg rows k').quantity| < qty_zero_eps ∧
          |(groupAgg rows k').lineTotal| < amt_zero_eps then none
       else some (groupAgg rows k')) = some g → g.key = k' := by
    intro rows k' g h
    split at h
    · cases h
    · injection h with h
      rw [← h]
      rfl
  refine ⟨?_, ?_, ?_⟩
  · intro rows k
    constructor
    · intro hzero g hg hkey
      rcases List.mem_filterMap.mp hg with ⟨k', hk', hfk'⟩
      have hkk' : k' = k := by rw [← hkey, hf rows k' g hfk']
      subst hkk'
      rw [if_pos (by simpa [groupAgg] using hzero)] at hfk'
      cases hfk'
    · intro hnot hex
      have hk : k ∈ keysOf rows := (mem_keysOf rows k).mpr hex
      have := filterMap_key_single (hf rows) (keysOf rows) (keysOf_nodup rows) k hk
      rw [netGroups, this, if_neg (by simpa [groupAgg] using hnot)]
      exact ⟨rfl, rfl, rfl, rfl⟩
  · norm_num [netGroups, keysOf, groupAgg, dateMin, optMin, qty_zero_eps, amt_zero_eps,
      netSale, netRetFull, netKey0, List.filter_cons, List.filterMap]
  · norm_num [netGroups, keysOf, groupAgg, dateMin, optMin, qty_zero_eps, amt_zero_eps,
      netSale, netRetPart, netKey0, List.filter_cons, List.filterMap]

/-- Concrete instantiation of `net_grouping_spec` on the partial-offset
sample. -/
theorem net_grouping_witness :
    (¬(|(([netSale, netRetPart].filter fun r => decide (r.key = netKey0)).map
          (·.quantity)).sum| < qty_zero_eps ∧
       |(([netSale, netRetPart].filter fun r => decide (r.key = netKey0)).map
          (·.lineTotal)).sum| < amt_zero_eps) ∧
     (∃ r ∈ [netSale, netRetPart], r.key = netKey0)) ∧
    ((netGroups [netSale, netRetPart]).filter (fun g => decide (g.key = netKey0)) =
        [groupAgg [netSale, netRetPart] netKey0] ∧
      (groupAgg [netSale, netRetPart] netKey0).quantity =
        (([netSale, netRetPart].filter fun r => decide (r.key = netKey0)).map
          (·.quantity)).sum ∧
      (groupAgg [netSale, netRetPart] netKey0).lineTotal =
        (([netSale, netRetPart].filter fun r => decide (r.key = netKey0)).map
          (·.lineTotal)).sum ∧
      (groupAgg [netSale, netRetPart] netKey0).docDate =
        dateMin (([netSale, netRetPart].filter fun r => decide (r.key = netKey0)).map
          (·.docDate))) :=
  ⟨⟨by norm_num [netSale, netRetPart, netKey0, qty_zero_eps, amt_zero_eps, List.filter_cons],
    ⟨netSale, by simp, rfl⟩⟩,
   (net_grouping_spec.1 [netSale, netRetPart] netKey0).2
     (by norm_num [netSale, netRetPart, netKey0, qty_zero_eps, amt_zero_eps, List.filter_cons])
     ⟨netSale, by simp, rfl⟩⟩

/-! ## Dimension upsert -/

theorem insertRows_keys : ∀ (ks : List String) (n : Int),
    (insertRows n ks).map (·.key) = ks := by
  intro ks
  induction ks with
  | nil => intro n; rfl
  | cons k ks ih => intro n; rw [insertRows, List.map_cons, ih]

theorem upsert_no_new (src : List (Option String)) (t : DimTable)
    (h : (dedupFirst (src.filterMap id)).filter
      (fun k => decide (normalizeKey k ∉ t.rows.map fun r => normalizeKey r.key)) = []) :
    (process_and_load_dim src t).1 = t := by
  simp only [process_and_load_dim]
  rw [h]
  cases t
  simp [insertRows]

theorem upsert_covers (src : List (Option String)) (t : DimTable) :
    ∀ k ∈ dedupFirst (src.filterMap id),
      normalizeKey k ∈ (process_and_load_dim src t).1.rows.map fun r => normalizeKey r.key := by
  intro k hk
  simp only [process_and_load_dim, List.map_append, List.mem_append]
  by_cases hmem : normalizeKey k ∈ t.rows.map fun r => normalizeKey r.key
  · exact Or.inl hmem
  · right
    have hknew : k ∈ (dedupFirst (src.filterMap id)).filter
        (fun k' => decide (normalizeKey k' ∉ t.rows.map fun r => normalizeKey r.key)) :=
      List.mem_filter.mpr ⟨hk, by simpa using hmem⟩
    have hins : (insertRows t.nextSk ((dedupFirst (src.filterMap id)).filter
        (fun k' => decide (normalizeKey k' ∉ t.rows.map fun r => normalizeKey r.key)))).map
          (fun r => normalizeKey r.key) =
        ((dedupFirst (src.filterMap id)).filter
          (fun k' => decide (normalizeKey k' ∉ t.rows.map fun r => normalizeKey r.key))).map
            normalizeKey := by
      rw [show (fun r : DimRow => normalizeKey r.key) = normalizeKey ∘ (·.key) from rfl,
        ← List.map_map, insertRows_keys]
    rw [hins]
    exact List.mem_map_of_mem normalizeKey hknew

/-- C7: running the dimension upsert a second time on the same source keys
changes nothing — no row is inserted and the returned key map is identical;
the upsert only ever appends rows (pre-existing rows survive unchanged in
place); and a source key whose trimmed, case-folded form already matches an
existing row's normalised key is not inserted. -/
theorem dim_upsert_idempotent (src : List (Option String)) (t : DimTable) :
    (process_and_load_dim src (process_and_load_dim src t).1).1 =
      (process_and_load_dim src t).1 ∧
    (process_and_load_dim src (process_and_load_dim src t).1).2 =
      (process_and_load_dim src t).2 ∧
    (∃ inserted, (process_and_load_dim src t).1.rows = t.rows ++ inserted) ∧
    (∀ k : String, normalizeKey k ∈ (t.rows.map fun r => normalizeKey r.key) →
      (process_and_load_dim [some k] t).1 = t) := by
  have hnil : (dedupFirst (src.filterMap id)).filter
      (fun k => decide (normalizeKey k ∉
        (process_and_load_dim src t).1.rows.map fun r => normalizeKey r.key)) = [] := by
    rw [List.filter_eq_nil_iff]
    intro k hk hcontra
    exact (by simpa using hcontra : normalizeKey k ∉ _) (upsert_covers src t k hk)
  have h1 : (process_and_load_dim src (process_and_load_dim src t).1).1 =
      (process_and_load_dim src t).1 := upsert_no_new src _ hnil
  have hsnd : ∀ (s : List (Option String)) (u : DimTable),
      (process_and_load_dim s u).2 = (process_and_load_dim s u).1.rows := fun _ _ => rfl
  refine ⟨h1, ?_, ?_, ?_⟩
  · rw [hsnd, hsnd, h1]
  · exact ⟨_, rfl⟩
  · intro k hmem
    apply upsert_no_new
    rw [show dedupFirst ([some k].filterMap id) = [k] from rfl]
    rw [List.filter_eq_nil_iff]
    intro x hx
    rcases List.mem_cons.mp hx with rfl | hx'
    · simpa using hmem
    · cases hx'

/-- Concrete instantiation of `dim_upsert_idempotent`: the key `" aB "`
normalises to `"AB"`, matching the stored row `"Ab"`, so it is not
re-inserted. -/
theorem dim_upsert_witness :
    normalizeKey " aB " ∈ (dimT0.rows.map fun r => normalizeKey r.key) ∧
    (process_and_load_dim [some " aB "] dimT0).1 = dimT0 :=
  ⟨by decide,
   (dim_upsert_idempotent [some " aB "] dimT0).2.2.2 " aB " (by decide)⟩

/-! ## Unknown-warehouse sentinel -/

/-- C8: the reserved `'UNK'` row is created only when absent, so repeated runs
leave exactly one such row; the creation step is idempotent; and a fact row
carrying no warehouse code resolves to surrogate key 0, as does a row whose
code has no match in the dimension. -/
theorem unknown_warehouse_sentinel :
    (∀ t : List WhsRow, countUNK (ensure_unknown_warehouse t) =
      if countUNK t = 0 then 1 else countUNK t) ∧
    (∀ t : List WhsRow,
      ensure_unknown_warehouse (ensure_unknown_warehouse t) = ensure_unknown_warehouse t) ∧
    (∀ lookup : List WhsRow, assignWarehouseSK none lookup = 0) ∧
    (∀ (c : String) (lookup : List WhsRow),
      lookup.find? (fun r => r.whsCode == c) = none →
      assignWarehouseSK (some c) lookup = 0) := by
  refine ⟨?_, ?_, fun _ => rfl, ?_⟩
  · intro t
    unfold ensure_unknown_warehouse countUNK
    by_cases h : t.any (fun r => r.whsCode == "UNK") = true
    · rw [if_pos h]
      rcases List.any_eq_true.mp h with ⟨r, hr, hp⟩
      have hne : (t.filter fun r => r.whsCode == "UNK").length ≠ 0 := by
        rw [Ne, List.length_eq_zero, List.filter_eq_nil_iff]
        intro hall
        exact hall r hr hp
      rw [if_neg hne]
    · rw [if_neg h]
      have h0 : (t.filter fun r => r.whsCode == "UNK").length = 0 := by
        rw [List.length_eq_zero, List.filter_eq_nil_iff]
        intro r hr hp
        exact h (List.any_eq_true.mpr ⟨r, hr, hp⟩)
      rw [List.filter_append, List.length_append, h0, if_pos rfl]
      rfl
  · intro t
    unfold ensure_unknown_warehouse
    by_cases h : t.any (fun r => r.whsCode == "UNK") = true
    · simp only [if_pos h]
    · rw [if_neg h, if_pos]
      exact List.any_eq_true.mpr
        ⟨⟨0, "UNK", "Bodega Desconocida"⟩, List.mem_append_right _ (List.mem_singleton.mpr rfl), rfl⟩
      
  · intro c lookup h
    simp [assignWarehouseSK, h]

/-- Concrete instantiation of `unknown_warehouse_sentinel`: a code absent from
an empty dimension resolves to 0. -/
theorem unknown_warehouse_sentinel_witness :
    ([] : List WhsRow).find? (fun r => r.whsCode == "W9") = none ∧
    assignWarehouseSK (some "W9") [] = 0 :=
  ⟨rfl, unknown_warehouse_sentinel.2.2.2 "W9" [] rfl⟩

/-! ## Delete-by-tag frame -/

/-- C9: the cleanup deletes exactly the rows carrying this feed's provenance
tag: a row survives iff it was present and carries a different tag, and the
rows under any other tag are preserved with their multiplicity and order. -/
theorem delete_by_tag_frame :
    (∀ (tbl : List FactRow) (r : FactRow),
      r ∈ deleteByTag SOURCE_SYSTEM_DB tbl ↔
        r ∈ tbl ∧ r.source_system ≠ SOURCE_SYSTEM_DB) ∧
    (∀ s : String, s ≠ SOURCE_SYSTEM_DB → ∀ tbl : List FactRow,
      (deleteByTag SOURCE_SYSTEM_DB tbl).filter (fun r => decide (r.source_system = s)) =
        tbl.filter (fun r => decide (r.source_system = s))) := by
  constructor
  · intro tbl r
    unfold deleteByTag
    rw [List.mem_filter]
    simp
  · intro s hs tbl
    unfold deleteByTag
    rw [List.filter_filter]
    apply List.filter_congr
    intro r _
    by_cases h : r.source_system = s
    · simp [h, hs]
    · simp [h]

/-- Concrete instantiation of `delete_by_tag_frame`: rows under the sibling
tag `AGG_JSON` survive the cleanup of the `DB_SALES` feed. -/
theorem delete_by_tag_witness :
    ("AGG_JSON" ≠ SOURCE_SYSTEM_DB) ∧
    (deleteByTag SOURCE_SYSTEM_DB [aggJsonRow]).filter
        (fun r => decide (r.source_system = "AGG_JSON")) =
      [aggJsonRow].filter (fun r => decide (r.source_system = "AGG_JSON")) :=
  ⟨by decide, delete_by_tag_frame.2 "AGG_JSON" (by decide) [aggJsonRow]⟩

/-! ## Validation gate -/

/-- C2: when any validation check fails, the load raises before any insert is
attempted — no rows are attempted, nothing is inserted (the table is left at
its post-cleanup state), the error carries the full violation list, and every
failing check is represented in that list (null required keys, null quantity,
integer overflow, decimal overflow are all collected, not only the first). -/
theorem validation_gate (table batch : List FactRow) (oracle : InsertOracle)
    (hv : validateFacts batch ≠ []) :
    (load_fact_sales table batch oracle).raisedToCaller =
      some (.validationFailed (validateFacts batch)) ∧
    (load_fact_sales table batch oracle).finalTable = deleteByTag SOURCE_SYSTEM_DB table ∧
    (load_fact_sales table batch oracle).printedBulkSuccess = false ∧
    (load_fact_sales table batch oracle).rowsAttempted = 0 ∧
    (∀ c ∈ required_int_cols, (batch.any fun r => (intColVal r c).isNone) →
      Violation.nullRequired c ∈ validateFacts batch) ∧
    ((batch.any fun r => r.quantity.isNone) →
      Violation.nullRequired .quantity ∈ validateFacts batch) ∧
    (∀ c ∈ int_cols, (batch.any fun r => intOverflowB r c) →
      Violation.intOverflow c ∈ validateFacts batch) ∧
    (∀ c ∈ dec_cols, ((batch.map roundDecRow).any fun r => decOverflowB r c) →
      Violation.decOverflow c ∈ validateFacts batch) := by
  have hemp : (validateFacts batch).isEmpty = false := by
    rcases h : validateFacts batch with _ | ⟨v, vs⟩
    · exact absurd h hv
    · rfl
  have hload : load_fact_sales table batch oracle =
      { finalTable := deleteByTag SOURCE_SYSTEM_DB table
        raisedToCaller := some (.validationFailed (validateFacts batch))
        printedBulkSuccess := false
        aggregateRaised := none
        collectedFailures := []
        rowsAttempted := 0 } := by
    simp only [load_fact_sales, hemp, Bool.false_eq_true, if_false]
  refine ⟨by rw [hload], by rw [hload], by rw [hload], by rw [hload], ?_, ?_, ?_, ?_⟩
  · intro c hc h
    simp only [validateFacts]
    refine List.mem_append.mpr (Or.inl (List.mem_append.mpr (Or.inl
      (List.mem_append.mpr (Or.inl ?_)))))
    exact List.mem_filterMap.mpr ⟨c, hc, by rw [if_pos h]⟩
  · intro h
    simp only [validateFacts]
    refine List.mem_append.mpr (Or.inl (List.mem_append.mpr (Or.inl
      (List.mem_append.mpr (Or.inr ?_)))))
    rw [if_pos h]
    exact List.mem_singleton.mpr rfl
  · intro c hc h
    simp only [validateFacts]
    refine List.mem_append.mpr (Or.inl (List.mem_append.mpr (Or.inr ?_)))
    exact List.mem_filterMap.mpr ⟨c, hc, by rw [if_pos h]⟩
  · intro c hc h
    simp only [validateFacts]
    refine List.mem_append.mpr (Or.inr ?_)
    exact List.mem_filterMap.mpr ⟨c, hc, by rw [if_pos h]⟩

/-- Concrete instantiation of `validation_gate` on a batch with null required
keys. -/
theorem validation_gate_witness :
    validateFacts [nullKeyFactRow] ≠ [] ∧
    ((load_fact_sales [aggJsonRow] [nullKeyFactRow] ⟨false, fun _ => false⟩).raisedToCaller =
      some (.validationFailed (validateFacts [nullKeyFactRow])) ∧
     (load_fact_sales [aggJsonRow] [nullKeyFactRow] ⟨false, fun _ => false⟩).finalTable =
      deleteByTag SOURCE_SYSTEM_DB [aggJsonRow]) :=
  ⟨by decide,
   ⟨(validation_gate [aggJsonRow] [nullKeyFactRow] ⟨false, fun _ => false⟩ (by decide)).1,
    (validation_gate [aggJsonRow] [nullKeyFactRow] ⟨false, fun _ => false⟩ (by decide)).2.1⟩⟩

/-! ## Bulk-insert fallback -/

theorem validFactRow_valid : validateFacts [validFactRow] = [] := by
  norm_num [validateFacts, roundDecRow, roundScale10, round_eq, decOverflowB, intOverflowB,
    decColVal, intColVal, required_int_cols, int_cols, dec_cols, SQL_INT_MAX,
    DECIMAL_38_10_MAX, validFactRow]
  exact ⟨fun h => Option.noConfusion h, fun h => Option.noConfusion h,
    fun h => Option.noConfusion h⟩

/-- C1 (amended): when the bulk insert of a validated batch fails, the load
rolls the bulk attempt back, retries every row individually (committing each
success), collects every failing row's index, and raises an aggregate error
carrying the failure count — but that error is caught by the function's own
blanket exception handler, so no error reaches the caller and the run still
reports success (the original claim's propagation clause fails). -/
theorem bulk_fallback_swallows_aggregate_error
    (table batch : List FactRow) (oracle : InsertOracle)
    (hval : validateFacts batch = []) (hbulk : oracle.bulkFails = true) :
    (load_fact_sales table batch oracle).rowsAttempted = batch.length ∧
    (load_fact_sales table batch oracle).collectedFailures =
      (List.range batch.length).filter oracle.rowFails ∧
    (load_fact_sales table batch oracle).aggregateRaised =
      some ((List.range batch.length).filter oracle.rowFails).length ∧
    (load_fact_sales table batch oracle).finalTable =
      deleteByTag SOURCE_SYSTEM_DB table ++
        (((batch.map roundDecRow).enum.filter fun p => !oracle.rowFails p.1).map Prod.snd) ∧
    (load_fact_sales table batch oracle).raisedToCaller = none ∧
    runReportsSuccess (load_fact_sales table batch oracle) = true := by
  have hemp : (validateFacts batch).isEmpty = true := by rw [hval]; rfl
  have hload : load_fact_sales table batch oracle =
      { finalTable := deleteByTag SOURCE_SYSTEM_DB table ++
          (((batch.map roundDecRow).enum.filter fun p => !oracle.rowFails p.1).map Prod.snd)
        raisedToCaller := none
        printedBulkSuccess := false
        aggregateRaised :=
          some ((List.range (batch.map roundDecRow).length).filter oracle.rowFails).length
        collectedFailures := (List.range (batch.map roundDecRow).length).filter oracle.rowFails
        rowsAttempted := (batch.map roundDecRow).length } := by
    simp only [load_fact_sales, hemp, if_true, hbulk]
  rw [hload]
  refine ⟨by simp, by simp, by simp, rfl, rfl, rfl⟩

/-- C1 counterexample: a valid one-row batch whose bulk insert and per-row
retry both fail.  The aggregate error is raised and the failing row is
collected, yet nothing propagates to the caller and the run reports
success. -/
theorem bulk_failure_not_propagated :
    validateFacts [validFactRow] = [] ∧
    (load_fact_sales [] [validFactRow] ⟨true, fun _ => true⟩).aggregateRaised = some 1 ∧
    (load_fact_sales [] [validFactRow] ⟨true, fun _ => true⟩).collectedFailures = [0] ∧
    (load_fact_sales [] [validFactRow] ⟨true, fun _ => true⟩).raisedToCaller = none ∧
    runReportsSuccess (load_fact_sales [] [validFactRow] ⟨true, fun _ => true⟩) = true := by
  have hv : validateFacts [validFactRow] = [] := validFactRow_valid
  have hemp : (validateFacts [validFactRow]).isEmpty = true := by rw [hv]; rfl
  refine ⟨hv, ?_, ?_, ?_, ?_⟩ <;>
    simp [load_fact_sales, hemp, runReportsSuccess, List.range_succ]

/-- Concrete instantiation of `bulk_fallback_swallows_aggregate_error` on the
valid one-row batch. -/
theorem bulk_fallback_witness :
    (validateFacts [validFactRow] = [] ∧
     (⟨true, fun _ => true⟩ : InsertOracle).bulkFails = true) ∧
    ((load_fact_sales [] [validFactRow] ⟨true, fun _ => true⟩).rowsAttempted =
        [validFactRow].length ∧
     (load_fact_sales [] [validFactRow] ⟨true, fun _ => true⟩).collectedFailures =
        (List.range [validFactRow].length).filter (fun _ => true) ∧
     (load_fact_sales [] [validFactRow] ⟨true, fun _ => true⟩).aggregateRaised =
        some ((List.range [validFactRow].length).filter (fun _ => true)).length ∧
     (load_fact_sales [] [validFactRow] ⟨true, fun _ => true⟩).finalTable =
        deleteByTag SOURCE_SYSTEM_DB [] ++
          ((([validFactRow].map roundDecRow).enum.filter fun p => !(fun _ => true) p.1).map
            Prod.snd) ∧
     (load_fact_sales [] [validFactRow] ⟨true, fun _ => true⟩).raisedToCaller = none ∧
     runReportsSuccess (load_fact_sales [] [validFactRow] ⟨true, fun _ => true⟩) = true) :=
  ⟨⟨validFactRow_valid, rfl⟩,
   bulk_fallback_swallows_aggregate_error [] [validFactRow] ⟨true, fun _ => true⟩
     validFactRow_valid rfl⟩

end ETL
